import Mathlib

/-!
Shallow embedding of the grouped-table compaction and span computation of
`src/app.py` (function `generar_pdf_resumen_dia_completo`, lines 164-232).

The source sorts a pandas frame by `['Area', 'Faena', 'Ubicacion']`, turns it
into `raw_data = df_pdf.values.tolist()` (a list of rows of strings), and then

* computes ReportLab `('SPAN', (c, start), (c, stop))` merge instructions for
  column 0 (`Area`) and, when the table has more than one column, for column 1
  (`Faena`, keyed by the pair `(Area, Faena)`), using 1-based visual row
  indices because row 0 of the rendered table is the header row; and
* produces a blanked copy of the rows (`data_procesada`) in which a repeated
  `Area` cell, and a repeated `Faena` cell under an unchanged `Area`, are
  replaced by the empty string.

Rows are embedded as `List String` (the frame is `.fillna("").astype(str)`),
and Python list indexing is embedded as an `Except` computation that raises
`indexError` out of range, exactly where the source indexes.
-/

namespace Tablero

/-- A data row of the rendered table: the list of its cell strings. -/
abbrev Row := List String

/-- Runtime failures of the embedded code: Python list indexing and list
assignment raise `IndexError` when the index is out of range. -/
inductive PErr where
  | indexError
deriving DecidableEq, Repr

/-- A merge instruction `('SPAN', (col, start), (col, stop))` as appended to
the `spans` list by the source: `start` and `stop` are inclusive visual row
indices (1-based, row 0 being the header row). -/
structure Span where
  col : Nat
  start : Nat
  stop : Nat
deriving DecidableEq, Repr

/-- Read `r[i]` with Python list semantics: `IndexError` out of range. -/
def cellGet (r : Row) (i : Nat) : Except PErr String :=
  match r[i]? with
  | some v => .ok v
  | none => .error .indexError

/-- Assignment `r[i] = v` with Python list semantics: `IndexError` out of
range. -/
def setCell (r : Row) (i : Nat) (v : String) : Except PErr Row :=
  if i < r.length then .ok (r.set i v) else .error .indexError

/-- The body of one span loop of the source, generic in the comparison key:
`for i, row in enumerate(raw_data[1:], start=2): ...` followed by the final
flush `if len(raw_data) + 1 > start_row: spans.append(...)`.  The counter `i`
is the visual row index of the head of the remaining list; the flush
condition `len(raw_data) + 1 > start_row` is `startRow < i` once the list is
exhausted, and the emitted end index `len(raw_data)` is `i - 1` there. -/
def spanGo {K : Type} [DecidableEq K] (col : Nat) (key : Row → Except PErr K)
    (last : K) (startRow i : Nat) : List Row → Except PErr (List Span)
  | [] => .ok (if startRow < i then [⟨col, startRow, i - 1⟩] else [])
  | r :: rest => do
      let curr ← key r
      if curr ≠ last then
        let emitted := if startRow < i - 1 then [⟨col, startRow, i - 1⟩] else []
        let more ← spanGo col key curr i (i + 1) rest
        .ok (emitted ++ more)
      else
        spanGo col key last startRow (i + 1) rest

/-- The comparison key of the `Area` span block: `row[0]`. -/
def keyArea (r : Row) : Except PErr String := cellGet r 0

/-- The comparison key of the `Faena` span block: the tuple
`(row[0], row[1])`. -/
def keyFaena (r : Row) : Except PErr (String × String) := do
  let a ← cellGet r 0
  let b ← cellGet r 1
  .ok (a, b)

/-- The `Area` span block (source lines 170-184): seeded with
`last_val = raw_data[0][0]`, `start_row = 1`, loop counter starting at 2. -/
def spansArea (raw : List Row) : Except PErr (List Span) :=
  match raw with
  | [] => .ok []
  | r0 :: rest => do
      let last ← keyArea r0
      spanGo 0 keyArea last 1 2 rest

/-- The `Faena` span block (source lines 189-201): seeded with
`last_val = (raw_data[0][0], raw_data[0][1])`. -/
def spansFaena (raw : List Row) : Except PErr (List Span) :=
  match raw with
  | [] => .ok []
  | r0 :: rest => do
      let last ← keyFaena r0
      spanGo 1 keyFaena last 1 2 rest

/-- The whole span computation: the `Area` block runs when
`len(raw_data) > 0`, the `Faena` block when additionally
`len(cols_existentes) > 1`; `w` is the column count `len(cols_existentes)`.
The two blocks append into the single `spans` list in this order. -/
def computeSpans (w : Nat) (raw : List Row) : Except PErr (List Span) := do
  let sA ← if 0 < raw.length then spansArea raw else .ok []
  let sF ← if 0 < raw.length ∧ 1 < w then spansFaena raw else .ok []
  .ok (sA ++ sF)

/-- One iteration of the blanking loop (source lines 210-226), acting on one
row and the mutable pair `(prev_area, prev_faena)` (Python `None` embedded as
`Option.none`).  `faena_actual` is `fila_texto[1] if len(fila_texto) > 1 else
""`, i.e. `row.getD 1 ""`. -/
def compactRow (st : Option String × Option String) (row : Row) :
    Except PErr (Row × Option String × Option String) := do
  let area ← cellGet row 0
  let faena := row.getD 1 ""
  let (prevArea, prevFaena) := st
  let (fila1, prevArea1, prevFaena1) ←
    if prevArea = some area then do
      let f ← setCell row 0 ""
      .ok (f, prevArea, prevFaena)
    else
      .ok (row, some area, (none : Option String))
  let c0 ← cellGet fila1 0
  if c0 = "" ∧ prevFaena1 = some faena then do
    let fila2 ← setCell fila1 1 ""
    .ok (fila2, prevArea1, prevFaena1)
  else
    .ok (fila1, prevArea1, some faena)

/-- The blanking loop over all rows, threading `(prev_area, prev_faena)`. -/
def compactGo (st : Option String × Option String) :
    List Row → Except PErr (List Row)
  | [] => .ok []
  | r :: rest => do
      let (r1, st1) ← compactRow st r
      let rest1 ← compactGo st1 rest
      .ok (r1 :: rest1)

/-- The full blanking pass: `prev_area = None`, `prev_faena = None` before
the loop. -/
def compact (raw : List Row) : Except PErr (List Row) :=
  compactGo (none, none) raw

/-! ### Pure mirrors used for the proofs

Under the width hypotheses that make every cell access of the source succeed
(every row holding at least the two grouping columns), the `Except`
computations above agree with the following pure functions; the agreement is
proved below, and all structural reasoning happens on the pure side. -/

/-- Pure mirror of `keyArea`. -/
def keyAreaP (r : Row) : String := r.getD 0 ""

/-- Pure mirror of `keyFaena`. -/
def keyFaenaP (r : Row) : String × String := (r.getD 0 "", r.getD 1 "")

/-- The `Area` keys of all rows. -/
def keysA (raw : List Row) : List String := raw.map keyAreaP

/-- The `(Area, Faena)` keys of all rows. -/
def keysF (raw : List Row) : List (String × String) := raw.map keyFaenaP

/-- Pure mirror of `spanGo`, over the list of keys. -/
def spanGoP {K : Type} [DecidableEq K] (col : Nat) (last : K)
    (startRow i : Nat) : List K → List Span
  | [] => if startRow < i then [⟨col, startRow, i - 1⟩] else []
  | k :: rest =>
      if k ≠ last then
        (if startRow < i - 1 then [⟨col, startRow, i - 1⟩] else []) ++
          spanGoP col k i (i + 1) rest
      else
        spanGoP col last startRow (i + 1) rest

/-- Pure mirror of `spansArea`. -/
def spanAP (raw : List Row) : List Span :=
  match raw with
  | [] => []
  | r0 :: rest => spanGoP 0 (keyAreaP r0) 1 2 (keysA rest)

/-- Pure mirror of `spansFaena`. -/
def spanFP (raw : List Row) : List Span :=
  match raw with
  | [] => []
  | r0 :: rest => spanGoP 1 (keyFaenaP r0) 1 2 (keysF rest)

/-- Pure mirror of `computeSpans`. -/
def computeSpansP (w : Nat) (raw : List Row) : List Span :=
  spanAP raw ++ if 1 < w then spanFP raw else []

/-- What one blanking iteration does to a row once the state invariant holds:
`a` and `f` are the previous row's `Area` and `Faena` cells.  The `Area` cell
is blanked when it repeats; the `Faena` cell is additionally blanked when the
`Faena` repeats under an unchanged `Area`. -/
def blankStep (a f : String) (row : Row) : Row :=
  if row.getD 0 "" = a then
    if row.getD 1 "" = f then (row.set 0 "").set 1 "" else row.set 0 ""
  else row

/-- Blanking of all rows after the first, each against its predecessor. -/
def compactCGo (p : Row) : List Row → List Row
  | [] => []
  | r :: rest => blankStep (p.getD 0 "") (p.getD 1 "") r :: compactCGo r rest

/-- Closed form of the blanking pass: the first row is kept verbatim, each
later row is blanked against its predecessor. -/
def compactC : List Row → List Row
  | [] => []
  | r :: rest => r :: compactCGo r rest

/-! ### Maximal runs

Modelled from the spec (§3 and Glossary): a run at a grouping level is a
maximal contiguous block of rows with equal keys at that level (the `Faena`
key being the `(Area, Faena)` pair, which realises the cascading reset).  The
source never materialises runs, but the spec states claims about them
("length-1 runs"), so the decomposition is defined here over the same visual
indices the span loops use. -/

/-- Maximal-run decomposition of the key list, in visual row indices, with
the same seeding as the span loops: `(value, first, last)` per run. -/
def runsGoP {K : Type} [DecidableEq K] (last : K) (startRow i : Nat) :
    List K → List (K × Nat × Nat)
  | [] => [(last, startRow, i - 1)]
  | k :: rest =>
      if k ≠ last then (last, startRow, i - 1) :: runsGoP k i (i + 1) rest
      else runsGoP last startRow (i + 1) rest

/-- Maximal runs of a key list, visual rows starting at 1. -/
def runsP {K : Type} [DecidableEq K] : List K → List (K × Nat × Nat)
  | [] => []
  | k :: rest => runsGoP k 1 2 rest

/-- Maximal runs at the `Area` level. -/
def runsA (raw : List Row) : List (String × Nat × Nat) := runsP (keysA raw)

/-- Maximal runs at the `Faena` level (keyed by the `(Area, Faena)` pair). -/
def runsF (raw : List Row) : List ((String × String) × Nat × Nat) :=
  runsP (keysF raw)

/-- The spans the source emits, expressed over a run decomposition: every
interior run strictly longer than one row, and the final run always. -/
def spansOfRuns {K : Type} (col : Nat) : List (K × Nat × Nat) → List Span
  | [] => []
  | rn :: rest =>
      match rest with
      | [] => [⟨col, rn.2.1, rn.2.2⟩]
      | _ :: _ =>
          (if rn.2.1 < rn.2.2 then [⟨col, rn.2.1, rn.2.2⟩] else []) ++
            spansOfRuns col rest

/-- The visual row intervals of the spans emitted at one column. -/
def intervalsAt (c : Nat) (sps : List Span) : List (Nat × Nat) :=
  (sps.filter (fun sp => sp.col == c)).map (fun sp => (sp.start, sp.stop))

/-- The visual row intervals of the length-1 runs of a decomposition. -/
def singlesOf {K : Type} (rns : List (K × Nat × Nat)) : List (Nat × Nat) :=
  (rns.filter (fun rn => rn.2.1 == rn.2.2)).map (fun rn => (rn.2.1, rn.2.2))

/-- A collection of inclusive intervals partitions the visual row range
`[1, n]`: every row is covered, distinct intervals never overlap, and every
interval stays inside the range. -/
def partitions (coll : List (Nat × Nat)) (n : Nat) : Prop :=
  (∀ v, 1 ≤ v → v ≤ n → ∃ p ∈ coll, p.1 ≤ v ∧ v ≤ p.2) ∧
  (∀ p ∈ coll, ∀ q ∈ coll, p ≠ q →
    ∀ v, ¬ (p.1 ≤ v ∧ v ≤ p.2 ∧ q.1 ≤ v ∧ v ≤ q.2)) ∧
  (∀ p ∈ coll, 1 ≤ p.1 ∧ p.2 ≤ n)

/-! ### Small list and monad lemmas -/

/-- Bind on a successful `Except` computation. -/
@[simp] theorem ok_bind {α β : Type} (a : α) (f : α → Except PErr β) :
    (Except.ok a : Except PErr α) >>= f = f a := rfl

/-- Bind on a failed `Except` computation. -/
@[simp] theorem error_bind {α β : Type} (e : PErr) (f : α → Except PErr β) :
    (Except.error e : Except PErr α) >>= f = .error e := rfl

/-- Defaulted lookup through a `map`, with the default pushed through. -/
theorem getDmap {α β : Type} (f : α → β) (l : List α) (n : Nat) (d : α) :
    ((l.map f)[n]?).getD (f d) = f ((l[n]?).getD d) := by
  rcases h : l[n]? with _ | a
  · simp [h]
  · simp [h]

/-! ### Agreement between the `Except` embedding and the pure mirrors -/

/-- In-range cell reads succeed with the `getD` value. -/
theorem cellGet_of_lt (r : Row) (i : Nat) (h : i < r.length) :
    cellGet r i = .ok (r.getD i "") := by
  simp [cellGet, List.getElem?_eq_getElem h]

/-- In-range cell writes succeed with the `set` value. -/
theorem setCell_of_lt (r : Row) (i : Nat) (v : String) (h : i < r.length) :
    setCell r i v = .ok (r.set i v) := by
  simp [setCell, h]

/-- Out-of-range cell reads raise `indexError`. -/
theorem cellGet_of_le (r : Row) (i : Nat) (h : r.length ≤ i) :
    cellGet r i = .error .indexError := by
  simp [cellGet, List.getElem?_eq_none h]

/-- The `Area` key of a nonempty row. -/
theorem keyArea_ok (r : Row) (h : 1 ≤ r.length) : keyArea r = .ok (keyAreaP r) :=
  cellGet_of_lt r 0 h

/-- The `(Area, Faena)` key of a row with both grouping columns. -/
theorem keyFaena_ok (r : Row) (h : 2 ≤ r.length) :
    keyFaena r = .ok (keyFaenaP r) := by
  have h0 : 0 < r.length := Nat.lt_of_lt_of_le (by norm_num) h
  simp [keyFaena, cellGet_of_lt r 0 h0, cellGet_of_lt r 1 h, keyFaenaP]

/-- The span loop agrees with its pure mirror when every key succeeds. -/
theorem spanGo_eq_pure {K : Type} [DecidableEq K] (col : Nat)
    (key : Row → Except PErr K) (f : Row → K) :
    ∀ (l : List Row), (∀ r ∈ l, key r = .ok (f r)) →
      ∀ (last : K) (startRow i : Nat),
        spanGo col key last startRow i l =
          .ok (spanGoP col last startRow i (l.map f))
  | [], _, last, startRow, i => by simp [spanGo, spanGoP]
  | r :: rest, hf, last, startRow, i => by
      have hr : key r = .ok (f r) := hf r (List.mem_cons_self r rest)
      have ih := spanGo_eq_pure col key f rest
        (fun x hx => hf x (List.mem_cons_of_mem r hx))
      by_cases hc : f r = last
      · simp [spanGo, spanGoP, hr, hc, ih last startRow (i + 1)]
      · simp [spanGo, spanGoP, hr, hc, ih (f r) i (i + 1)]

/-- The `Area` span block agrees with its pure mirror. -/
theorem spansArea_eq (raw : List Row) (h : ∀ r ∈ raw, 1 ≤ r.length) :
    spansArea raw = .ok (spanAP raw) := by
  cases raw with
  | nil => rfl
  | cons r0 rest =>
      have h0 := keyArea_ok r0 (h r0 (by simp))
      have hgo := spanGo_eq_pure 0 keyArea keyAreaP rest
        (fun r hr => keyArea_ok r (h r (by simp [hr])))
      simp [spansArea, h0, hgo (keyAreaP r0) 1 2, spanAP, keysA]

/-- The `Faena` span block agrees with its pure mirror. -/
theorem spansFaena_eq (raw : List Row) (h : ∀ r ∈ raw, 2 ≤ r.length) :
    spansFaena raw = .ok (spanFP raw) := by
  cases raw with
  | nil => rfl
  | cons r0 rest =>
      have h0 := keyFaena_ok r0 (h r0 (by simp))
      have hgo := spanGo_eq_pure 1 keyFaena keyFaenaP rest
        (fun r hr => keyFaena_ok r (h r (by simp [hr])))
      simp [spansFaena, h0, hgo (keyFaenaP r0) 1 2, spanFP, keysF]

/-- The full span computation agrees with its pure mirror. -/
theorem computeSpans_eq (w : Nat) (raw : List Row)
    (h : ∀ r ∈ raw, 2 ≤ r.length) :
    computeSpans w raw = .ok (computeSpansP w raw) := by
  have h1 : ∀ r ∈ raw, 1 ≤ r.length :=
    fun r hr => Nat.le_trans (by norm_num) (h r hr)
  cases raw with
  | nil =>
      simp [computeSpans, computeSpansP, spanAP, spanFP]
  | cons r0 rest =>
      by_cases hw : 1 < w
      · simp [computeSpans, computeSpansP, hw, spansArea_eq _ h1,
          spansFaena_eq _ h]
      · simp [computeSpans, computeSpansP, hw, spansArea_eq _ h1]

/-- The first blanking iteration (state `(None, None)`) keeps the row and
records its two grouping cells. -/
theorem compactRow_first (row : Row) (h : 1 ≤ row.length) :
    compactRow (none, none) row =
      .ok (row, some (row.getD 0 ""), some (row.getD 1 "")) := by
  simp [compactRow, cellGet_of_lt row 0 h]

/-- A blanking iteration whose state holds the previous row's two grouping
cells acts as `blankStep` and records the current row's cells. -/
theorem compactRow_some (a f : String) (row : Row) (h : 2 ≤ row.length) :
    compactRow (some a, some f) row =
      .ok (blankStep a f row, some (row.getD 0 ""), some (row.getD 1 "")) := by
  have h0 : 0 < row.length := Nat.lt_of_lt_of_le (by norm_num) h
  have h0s : 0 < (row.set 0 "").length := by simpa using h0
  have h1s : 1 < (row.set 0 "").length := by simpa using h
  by_cases ha : a = (row[0]?).getD ""
  · by_cases hf2 : f = (row[1]?).getD ""
    · simp [compactRow, cellGet_of_lt row 0 h0, ha, hf2, blankStep,
        setCell_of_lt row 0 "" h0, cellGet_of_lt (row.set 0 "") 0 h0s,
        setCell_of_lt (row.set 0 "") 1 "" h1s,
        List.getElem?_set_self h0]
    · have hf2' : ¬ ((row[1]?).getD "" = f) := fun e => hf2 e.symm
      simp [compactRow, cellGet_of_lt row 0 h0, ha, hf2, hf2', blankStep,
        setCell_of_lt row 0 "" h0, cellGet_of_lt (row.set 0 "") 0 h0s,
        List.getElem?_set_self h0]
  · have ha' : ¬ ((row[0]?).getD "" = a) := fun e => ha e.symm
    simp [compactRow, cellGet_of_lt row 0 h0, ha, ha', blankStep]

/-- The blanking loop from a recorded-predecessor state agrees with the
pairwise closed form. -/
theorem compactGo_eq :
    ∀ (l : List Row) (p : Row), (∀ r ∈ l, 2 ≤ r.length) →
      compactGo (some (p.getD 0 ""), some (p.getD 1 "")) l =
        .ok (compactCGo p l)
  | [], _, _ => rfl
  | r :: rest, p, h => by
      have hr : 2 ≤ r.length := h r (by simp)
      have ih := compactGo_eq rest r (fun x hx => h x (by simp [hx]))
      have key := compactRow_some (p.getD 0 "") (p.getD 1 "") r hr
      simp only [List.getD_eq_getElem?_getD] at ih key
      simp [compactGo, key, ih, compactCGo]

/-- The blanking pass agrees with its closed form when every row holds both
grouping columns. -/
theorem compact_eq (raw : List Row) (h : ∀ r ∈ raw, 2 ≤ r.length) :
    compact raw = .ok (compactC raw) := by
  cases raw with
  | nil => rfl
  | cons r rest =>
      have hr : 1 ≤ r.length :=
        Nat.le_trans (by norm_num) (h r (by simp))
      have ih := compactGo_eq rest r (fun x hx => h x (by simp [hx]))
      simp only [List.getD_eq_getElem?_getD] at ih
      simp [compact, compactGo, compactRow_first r hr, ih, compactC]

/-! ### Structure of the run decomposition and of the emitted spans -/

/-- The run decomposition is never empty: the final run is always present. -/
theorem runsGoP_ne_nil {K : Type} [DecidableEq K] :
    ∀ (l : List K) (last : K) (startRow i : Nat),
      runsGoP last startRow i l ≠ []
  | [], _, _, _ => by simp [runsGoP]
  | k :: rest, last, startRow, i => by
      by_cases hc : k = last
      · simpa [runsGoP, hc] using runsGoP_ne_nil rest last startRow (i + 1)
      · simp [runsGoP, hc]

/-- The span loop emits exactly `spansOfRuns` of the run decomposition:
every interior run strictly longer than one row, plus the final run always
(the flush condition `len(raw_data) + 1 > start_row` never fails). -/
theorem spanGoP_runs {K : Type} [DecidableEq K] (col : Nat) :
    ∀ (l : List K) (last : K) (startRow i : Nat), startRow < i →
      spanGoP col last startRow i l =
        spansOfRuns col (runsGoP last startRow i l)
  | [], last, startRow, i, h => by simp [spanGoP, runsGoP, spansOfRuns, h]
  | k :: rest, last, startRow, i, h => by
      by_cases hc : k = last
      · simp [spanGoP, runsGoP, hc,
          spanGoP_runs col rest last startRow (i + 1) (Nat.lt_succ_of_lt h)]
      · rcases hrns : runsGoP k i (i + 1) rest with _ | ⟨r1, l1⟩
        · exact absurd hrns (runsGoP_ne_nil rest k i (i + 1))
        · have ih := spanGoP_runs col rest k i (i + 1) (Nat.lt_succ_self i)
          simp [spanGoP, runsGoP, hc, ih, hrns, spansOfRuns]

/-- The run decomposition, split into its interior runs and its final run,
whose last visual row is the last row of the table. -/
theorem runsGoP_last_decomp {K : Type} [DecidableEq K] :
    ∀ (l : List K) (last : K) (startRow i : Nat), 1 ≤ i →
      ∃ pre lrn, runsGoP last startRow i l = pre ++ [lrn] ∧
        lrn.2.2 = i - 1 + l.length
  | [], last, startRow, i, _ =>
      ⟨[], (last, startRow, i - 1), by simp [runsGoP]⟩
  | k :: rest, last, startRow, i, hi => by
      by_cases hc : k = last
      · obtain ⟨pre, lrn, he, hstop⟩ :=
          runsGoP_last_decomp rest last startRow (i + 1) (by omega)
        refine ⟨pre, lrn, by simp [runsGoP, hc, he], ?_⟩
        rw [hstop]; simp; omega
      · obtain ⟨pre, lrn, he, hstop⟩ :=
          runsGoP_last_decomp rest k i (i + 1) (by omega)
        refine ⟨(last, startRow, i - 1) :: pre, lrn,
          by simp [runsGoP, hc, he], ?_⟩
        rw [hstop]; simp; omega

/-- Bounds and strict ordering of the runs: each run lies inside the visual
row range of its suffix, and runs are pairwise ordered and disjoint. -/
theorem runsGoP_bounds {K : Type} [DecidableEq K] :
    ∀ (l : List K) (last : K) (startRow i : Nat),
      1 ≤ startRow → startRow < i →
      (∀ rn ∈ runsGoP last startRow i l,
        1 ≤ rn.2.1 ∧ startRow ≤ rn.2.1 ∧ rn.2.1 ≤ rn.2.2 ∧
          rn.2.2 ≤ i - 1 + l.length) ∧
      (runsGoP last startRow i l).Pairwise (fun a b => a.2.2 < b.2.1)
  | [], last, startRow, i, h1, h2 => by
      constructor
      · intro rn hrn
        simp [runsGoP] at hrn
        subst hrn
        exact ⟨h1, Nat.le_refl _, by show startRow ≤ i - 1; omega,
          by show i - 1 ≤ i - 1 + List.length ([] : List K); simp⟩
      · simp [runsGoP]
  | k :: rest, last, startRow, i, h1, h2 => by
      by_cases hc : k = last
      · obtain ⟨hb, hp⟩ :=
          runsGoP_bounds rest last startRow (i + 1) h1 (Nat.lt_succ_of_lt h2)
        constructor
        · intro rn hrn
          rw [runsGoP] at hrn
          simp [hc] at hrn
          obtain ⟨b1, b2, b3, b4⟩ := hb rn hrn
          exact ⟨b1, b2, b3, by simp; omega⟩
        · rw [runsGoP]; simp [hc]; exact hp
      · obtain ⟨hb, hp⟩ :=
          runsGoP_bounds rest k i (i + 1) (by omega) (Nat.lt_succ_self i)
        constructor
        · intro rn hrn
          rw [runsGoP] at hrn
          simp [hc] at hrn
          rcases hrn with hrn | hrn
          · subst hrn
            exact ⟨h1, Nat.le_refl _, by show startRow ≤ i - 1; omega,
              by show i - 1 ≤ i - 1 + (k :: rest).length
                 exact Nat.le_add_right _ _⟩
          · obtain ⟨b1, b2, b3, b4⟩ := hb rn hrn
            exact ⟨b1, by omega, b3, by simp; omega⟩
        · rw [runsGoP]
          simp only [hc, ne_eq, not_false_iff, if_pos, List.pairwise_cons]
          refine ⟨fun b hb2 => ?_, hp⟩
          have := (hb b hb2).2.1
          simp; omega

/-- Every visual row of the suffix range is covered by some run. -/
theorem runsGoP_cover {K : Type} [DecidableEq K] :
    ∀ (l : List K) (last : K) (startRow i : Nat),
      1 ≤ startRow → startRow < i →
      ∀ v, startRow ≤ v → v ≤ i - 1 + l.length →
        ∃ rn ∈ runsGoP last startRow i l, rn.2.1 ≤ v ∧ v ≤ rn.2.2
  | [], last, startRow, i, h1, h2, v, hv1, hv2 =>
      ⟨(last, startRow, i - 1), by simp [runsGoP], hv1, by simpa using hv2⟩
  | k :: rest, last, startRow, i, h1, h2, v, hv1, hv2 => by
      by_cases hc : k = last
      · have hv2' : v ≤ (i + 1) - 1 + rest.length := by simp at hv2 ⊢; omega
        obtain ⟨rn, hrn, hle⟩ :=
          runsGoP_cover rest last startRow (i + 1) h1
            (Nat.lt_succ_of_lt h2) v hv1 hv2'
        exact ⟨rn, by rw [runsGoP]; simp [hc]; exact hrn, hle⟩
      · by_cases hvi : v ≤ i - 1
        · exact ⟨(last, startRow, i - 1), by rw [runsGoP]; simp [hc], hv1, hvi⟩
        · have hv2' : v ≤ (i + 1) - 1 + rest.length := by
            simp at hv2 ⊢; omega
          obtain ⟨rn, hrn, hle⟩ :=
            runsGoP_cover rest k i (i + 1) (by omega)
              (Nat.lt_succ_self i) v (by omega) hv2'
          exact ⟨rn, by rw [runsGoP]; simp [hc]; right; exact hrn, hle⟩

/-- Soundness of the run decomposition against the full key list `ks`: each
run's value is the key of every visual row it covers (visual row `v` holding
the key `ks[v-1]`), and the row just before a run, when it exists, has a
different key. -/
theorem runsGoP_sound {K : Type} [DecidableEq K] (ks : List K) (d : K) :
    ∀ (l : List K) (last : K) (startRow i : Nat),
      1 ≤ startRow → startRow < i →
      (∀ j : Nat, l[j]? = ks[i - 1 + j]?) →
      (∀ u, startRow ≤ u → u < i → (ks[u - 1]?).getD d = last) →
      (startRow = 1 ∨ (ks[startRow - 2]?).getD d ≠ last) →
      ∀ rn ∈ runsGoP last startRow i l,
        (∀ v, rn.2.1 ≤ v → v ≤ rn.2.2 → (ks[v - 1]?).getD d = rn.1) ∧
        (rn.2.1 = 1 ∨ (ks[rn.2.1 - 2]?).getD d ≠ rn.1)
  | [], last, startRow, i, h1, h2, hnth, hconst, hbdry => by
      intro rn hrn
      simp [runsGoP] at hrn
      subst hrn
      refine ⟨fun v hv1 hv2 => ?_, hbdry⟩
      have hv1' : startRow ≤ v := hv1
      have hv2' : v ≤ i - 1 := hv2
      exact hconst v hv1' (by omega)
  | k :: rest, last, startRow, i, h1, h2, hnth, hconst, hbdry => by
      have hk : ks[i - 1]? = some k := by
        have := hnth 0
        simpa using this.symm
      have hnth' : ∀ j : Nat, rest[j]? = ks[i + j]? := by
        intro j
        have := hnth (j + 1)
        have harith : i - 1 + (j + 1) = i + j := by omega
        rw [harith] at this
        simpa using this
      have hnth'' : ∀ j : Nat, rest[j]? = ks[(i + 1) - 1 + j]? := by
        intro j
        have harith : (i + 1) - 1 + j = i + j := by omega
        rw [harith]
        exact hnth' j
      intro rn hrn
      by_cases hc : k = last
      · rw [runsGoP] at hrn
        simp [hc] at hrn
        refine runsGoP_sound ks d rest last startRow (i + 1) h1
          (Nat.lt_succ_of_lt h2) hnth'' ?_ hbdry rn hrn
        intro u hu1 hu2
        rcases Nat.lt_or_ge u i with hu | hu
        · exact hconst u hu1 hu
        · have hui : u - 1 = i - 1 := by omega
          rw [hui, hk]
          simpa using hc
      · rw [runsGoP] at hrn
        simp [hc] at hrn
        rcases hrn with hrn | hrn
        · subst hrn
          refine ⟨fun v hv1 hv2 => ?_, hbdry⟩
          have hv1' : startRow ≤ v := hv1
          have hv2' : v ≤ i - 1 := hv2
          exact hconst v hv1' (by omega)
        · refine runsGoP_sound ks d rest k i (i + 1) (by omega)
            (Nat.lt_succ_self i) hnth'' ?_ ?_ rn hrn
          · intro u hu1 hu2
            have hui : u - 1 = i - 1 := by omega
            rw [hui, hk]
            rfl
          · right
            have hprev := hconst (i - 1) (by omega) (by omega)
            rw [show i - 1 - 1 = i - 2 by omega] at hprev
            rw [hprev]
            exact fun e => hc e.symm

/-- Every emitted span names the interval of a run of the decomposition. -/
theorem mem_spansOfRuns {K : Type} (col : Nat) :
    ∀ (rns : List (K × Nat × Nat)) (sp : Span), sp ∈ spansOfRuns col rns →
      ∃ rn ∈ rns, sp = ⟨col, rn.2.1, rn.2.2⟩
  | [], sp, h => by simp [spansOfRuns] at h
  | rn :: rest, sp, h => by
      cases rest with
      | nil =>
          simp [spansOfRuns] at h
          exact ⟨rn, by simp, h⟩
      | cons r1 l1 =>
          rw [spansOfRuns] at h
          simp at h
          rcases h with ⟨hlt, he⟩ | h
          · exact ⟨rn, by simp, he⟩
          · obtain ⟨rn2, hrn2, he⟩ := mem_spansOfRuns col (r1 :: l1) sp h
            exact ⟨rn2, List.mem_cons_of_mem rn hrn2, he⟩

/-- The emitted spans of an interior-runs-plus-final-run decomposition:
interior runs are emitted exactly when strictly longer than one row, the
final run always. -/
theorem spansOfRuns_append_last {K : Type} (col : Nat) :
    ∀ (pre : List (K × Nat × Nat)) (lrn : K × Nat × Nat),
      spansOfRuns col (pre ++ [lrn]) =
        (pre.filter (fun rn => rn.2.1 < rn.2.2)).map
            (fun rn => ⟨col, rn.2.1, rn.2.2⟩) ++
          [⟨col, lrn.2.1, lrn.2.2⟩]
  | [], lrn => by simp [spansOfRuns]
  | rn :: pre, lrn => by
      have ih := spansOfRuns_append_last col pre lrn
      cases hp : pre ++ [lrn] with
      | nil => exact absurd hp (by simp)
      | cons r1 l1 =>
          rw [List.cons_append, hp, spansOfRuns, ← hp, ih]
          by_cases hlt : rn.2.1 < rn.2.2
          · simp [hlt, List.filter_cons]
          · simp [hlt, List.filter_cons]

/-- Emitted spans inherit the strict ordering of the runs. -/
theorem spansOfRuns_pairwise {K : Type} (col : Nat) :
    ∀ (rns : List (K × Nat × Nat)),
      rns.Pairwise (fun a b => a.2.2 < b.2.1) →
      (spansOfRuns col rns).Pairwise (fun a b => a.stop < b.start)
  | [], _ => by simp [spansOfRuns]
  | rn :: rest, h => by
      cases rest with
      | nil => simp [spansOfRuns]
      | cons r1 l1 =>
          rw [spansOfRuns]
          rw [List.pairwise_cons] at h
          obtain ⟨hhead, htail⟩ := h
          have ih := spansOfRuns_pairwise col (r1 :: l1) htail
          rw [List.pairwise_append]
          refine ⟨?_, ih, ?_⟩
          · by_cases hlt : rn.2.1 < rn.2.2 <;> simp [hlt]
          · intro a ha b hb
            obtain ⟨rn2, hrn2, he⟩ := mem_spansOfRuns col (r1 :: l1) b hb
            by_cases hlt : rn.2.1 < rn.2.2
            · simp [hlt] at ha
              subst ha
              rw [he]
              show rn.2.2 < rn2.2.1
              exact hhead rn2 hrn2
            · simp [hlt] at ha

/-! ### Index-level view of the blanking pass -/

/-- Blanking preserves the number of rows of the tail. -/
theorem compactCGo_length :
    ∀ (l : List Row) (p : Row), (compactCGo p l).length = l.length
  | [], _ => rfl
  | r :: rest, p => by simp [compactCGo, compactCGo_length rest r]

/-- Blanking preserves the number of rows. -/
theorem compactC_length : ∀ (l : List Row), (compactC l).length = l.length
  | [] => rfl
  | r :: rest => by simp [compactC, compactCGo_length rest r]

/-- Each blanked row of the tail is `blankStep` of its predecessor. -/
theorem compactCGo_getD :
    ∀ (l : List Row) (p : Row) (j : Nat), j < l.length →
      (compactCGo p l).getD j [] =
        blankStep (((p :: l).getD j []).getD 0 "")
          (((p :: l).getD j []).getD 1 "") (l.getD j [])
  | _ :: _, _, 0, _ => rfl
  | r :: rest, p, j + 1, h =>
      compactCGo_getD rest r j (by simpa using h)

/-- The first row of the blanked table is the first input row. -/
theorem compactC_getD_zero (l : List Row) :
    (compactC l).getD 0 [] = l.getD 0 [] := by
  cases l <;> rfl

/-- Each later row of the blanked table is `blankStep` of its predecessor. -/
theorem compactC_getD_succ :
    ∀ (l : List Row) (j : Nat), j + 1 < l.length →
      (compactC l).getD (j + 1) [] =
        blankStep ((l.getD j []).getD 0 "") ((l.getD j []).getD 1 "")
          (l.getD (j + 1) [])
  | r :: rest, j, h => compactCGo_getD rest r j (by simpa using h)

/-! ### Cell-level facts about `blankStep` -/

/-- Blanking never changes the number of cells of a row. -/
theorem blankStep_length (a f : String) (row : Row) :
    (blankStep a f row).length = row.length := by
  unfold blankStep
  split_ifs <;> simp

/-- A row whose `Area` differs from its predecessor's is kept verbatim. -/
theorem blankStep_of_ne (a f : String) (row : Row)
    (h : ¬ (row.getD 0 "" = a)) : blankStep a f row = row := by
  unfold blankStep
  rw [if_neg h]

/-- Cells right of the two grouping columns are never touched. -/
theorem blankStep_getD_of_two (a f : String) (row : Row) (j : Nat)
    (h : 2 ≤ j) : (blankStep a f row).getD j "" = row.getD j "" := by
  have h0 : (0 : Nat) ≠ j := by omega
  have h1 : (1 : Nat) ≠ j := by omega
  unfold blankStep
  split_ifs <;>
    simp [List.getElem?_set_ne h0, List.getElem?_set_ne h1]

/-- A repeated `Area` cell is blanked. -/
theorem blankStep_getD_zero_of_eq (a f : String) (row : Row)
    (h : row.getD 0 "" = a) : (blankStep a f row).getD 0 "" = "" := by
  unfold blankStep
  rw [if_pos h]
  by_cases hf : row.getD 1 "" = f
  · rw [if_pos hf]
    rcases row with _ | ⟨x, t⟩
    · rfl
    · rcases t with _ | ⟨y, t2⟩ <;> rfl
  · rw [if_neg hf]
    rcases row with _ | ⟨x, t⟩ <;> rfl

/-- A repeated `Faena` cell under a repeated `Area` is blanked. -/
theorem blankStep_getD_one_of_eq (a f : String) (row : Row)
    (h : row.getD 0 "" = a) (hf : row.getD 1 "" = f) :
    (blankStep a f row).getD 1 "" = "" := by
  unfold blankStep
  rw [if_pos h, if_pos hf]
  rcases row with _ | ⟨x, t⟩
  · rfl
  · rcases t with _ | ⟨y, t2⟩ <;> rfl

/-- A changed `Faena` cell is kept even when the `Area` cell is blanked. -/
theorem blankStep_getD_one_of_ne (a f : String) (row : Row)
    (hf : ¬ (row.getD 1 "" = f)) :
    (blankStep a f row).getD 1 "" = row.getD 1 "" := by
  unfold blankStep
  by_cases h : row.getD 0 "" = a
  · rw [if_pos h, if_neg hf]
    rcases row with _ | ⟨x, t⟩ <;> rfl
  · rw [if_neg h]

/-! ### The two span blocks through the run decomposition of the table -/

/-- The pure `Area` block is `spansOfRuns` of the `Area` runs. -/
theorem spanAP_runs (raw : List Row) :
    spanAP raw = spansOfRuns 0 (runsA raw) := by
  cases raw with
  | nil => rfl
  | cons r rest =>
      exact spanGoP_runs 0 (keysA rest) (keyAreaP r) 1 2 (by norm_num)

/-- The pure `Faena` block is `spansOfRuns` of the `Faena` runs. -/
theorem spanFP_runs (raw : List Row) :
    spanFP raw = spansOfRuns 1 (runsF raw) := by
  cases raw with
  | nil => rfl
  | cons r rest =>
      exact spanGoP_runs 1 (keysF rest) (keyFaenaP r) 1 2 (by norm_num)

/-- Bounds and ordering of the runs of a mapped key list over the table. -/
theorem runsP_map_bounds {K : Type} [DecidableEq K] (g : Row → K)
    (raw : List Row) :
    (∀ rn ∈ runsP (raw.map g),
      1 ≤ rn.2.1 ∧ rn.2.1 ≤ rn.2.2 ∧ rn.2.2 ≤ raw.length) ∧
    (runsP (raw.map g)).Pairwise (fun a b => a.2.2 < b.2.1) := by
  cases raw with
  | nil => exact ⟨by simp [runsP], by simp [runsP]⟩
  | cons r rest =>
      obtain ⟨hb, hp⟩ :=
        runsGoP_bounds (rest.map g) (g r) 1 2 (Nat.le_refl 1) (by norm_num)
      refine ⟨fun rn hrn => ?_, hp⟩
      obtain ⟨b1, _, b3, b4⟩ := hb rn hrn
      refine ⟨b1, b3, ?_⟩
      simp at b4 ⊢
      omega

/-- Soundness of the runs of a mapped key list: the run value is the key of
every covered visual row, and the preceding row, when it exists, has a
different key. -/
theorem runsP_map_sound {K : Type} [DecidableEq K] (g : Row → K)
    (raw : List Row) :
    ∀ rn ∈ runsP (raw.map g),
      (∀ v, rn.2.1 ≤ v → v ≤ rn.2.2 → g ((raw[v - 1]?).getD []) = rn.1) ∧
      (rn.2.1 = 1 ∨ g ((raw[rn.2.1 - 2]?).getD []) ≠ rn.1) := by
  cases raw with
  | nil => intro rn hrn; simp [runsP] at hrn
  | cons r rest =>
      intro rn hrn
      have hnth : ∀ j : Nat,
          (rest.map g)[j]? = (((r :: rest).map g))[2 - 1 + j]? := by
        intro j
        have harith : 2 - 1 + j = j + 1 := by omega
        rw [harith]
        simp
      have hconst : ∀ u, 1 ≤ u → u < 2 →
          ((((r :: rest).map g))[u - 1]?).getD (g []) = g r := by
        intro u hu1 hu2
        have hu : u = 1 := by omega
        subst hu
        simp
      obtain ⟨hcst, hbd⟩ := runsGoP_sound ((r :: rest).map g) (g [])
        (rest.map g) (g r) 1 2 (Nat.le_refl 1) (by norm_num) hnth hconst
        (Or.inl rfl) rn hrn
      constructor
      · intro v h1 h2
        have hv := hcst v h1 h2
        rwa [getDmap g (r :: rest) (v - 1) []] at hv
      · rcases hbd with hbd | hbd
        · exact Or.inl hbd
        · right
          intro he
          apply hbd
          rwa [getDmap g (r :: rest) (rn.2.1 - 2) []]

/-- Every visual row of the table is covered by some run. -/
theorem runsP_map_cover {K : Type} [DecidableEq K] (g : Row → K)
    (raw : List Row) :
    ∀ v, 1 ≤ v → v ≤ raw.length →
      ∃ rn ∈ runsP (raw.map g), rn.2.1 ≤ v ∧ v ≤ rn.2.2 := by
  cases raw with
  | nil => intro v h1 h2; simp at h2; omega
  | cons r rest =>
      intro v h1 h2
      refine runsGoP_cover (rest.map g) (g r) 1 2 (Nat.le_refl 1)
        (by norm_num) v h1 ?_
      simp at h2 ⊢
      omega

/-- The runs of a nonempty table split as interior runs plus a final run
ending at the last visual row. -/
theorem runsP_map_last {K : Type} [DecidableEq K] (g : Row → K)
    (raw : List Row) (h : raw ≠ []) :
    ∃ pre lrn, runsP (raw.map g) = pre ++ [lrn] ∧ lrn.2.2 = raw.length := by
  cases raw with
  | nil => exact absurd rfl h
  | cons r rest =>
      obtain ⟨pre, lrn, he, hstop⟩ :=
        runsGoP_last_decomp (rest.map g) (g r) 1 2 (by norm_num)
      refine ⟨pre, lrn, he, ?_⟩
      simp at hstop ⊢
      omega

/-- Every run strictly longer than one row is emitted as a span. -/
theorem spansOfRuns_of_mem_long {K : Type} (col : Nat) :
    ∀ (rns : List (K × Nat × Nat)) (rn : K × Nat × Nat), rn ∈ rns →
      rn.2.1 < rn.2.2 → (⟨col, rn.2.1, rn.2.2⟩ : Span) ∈ spansOfRuns col rns
  | [], rn, h, _ => absurd h (List.not_mem_nil rn)
  | rn0 :: rest, rn, h, hlt => by
      cases rest with
      | nil =>
          simp at h
          subst h
          simp [spansOfRuns]
      | cons r1 l1 =>
          rw [spansOfRuns]
          rcases List.mem_cons.mp h with h | h
          · subst h
            simp [hlt]
          · exact List.mem_append.mpr
              (Or.inr (spansOfRuns_of_mem_long col (r1 :: l1) rn h hlt))

/-- The final run is always emitted as a span. -/
theorem spansOfRuns_of_last {K : Type} (col : Nat)
    (pre : List (K × Nat × Nat)) (lrn : K × Nat × Nat) :
    (⟨col, lrn.2.1, lrn.2.2⟩ : Span) ∈ spansOfRuns col (pre ++ [lrn]) := by
  rw [spansOfRuns_append_last]
  simp

/-- Every emitted span carries the column it was computed for. -/
theorem spansOfRuns_col {K : Type} (col : Nat)
    (rns : List (K × Nat × Nat)) :
    ∀ sp ∈ spansOfRuns col rns, sp.col = col := by
  intro sp hs
  obtain ⟨rn, _, he⟩ := mem_spansOfRuns col rns sp hs
  rw [he]

/-- Splitting a span of the full computation into its originating block. -/
theorem mem_computeSpansP {w : Nat} {raw : List Row} {sp : Span}
    (h : sp ∈ computeSpansP w raw) :
    sp ∈ spanAP raw ∨ (1 < w ∧ sp ∈ spanFP raw) := by
  unfold computeSpansP at h
  rcases List.mem_append.mp h with h | h
  · exact Or.inl h
  · by_cases hw : 1 < w
    · rw [if_pos hw] at h
      exact Or.inr ⟨hw, h⟩
    · rw [if_neg hw] at h
      simp at h

/-- The column-0 spans of the full computation are the `Area` block. -/
theorem filter_computeSpansP_zero (w : Nat) (raw : List Row) :
    (computeSpansP w raw).filter (fun sp => sp.col == 0) = spanAP raw := by
  have hA : ∀ sp ∈ spanAP raw, sp.col = 0 := by
    rw [spanAP_runs]; exact spansOfRuns_col 0 (runsA raw)
  have hF : ∀ sp ∈ spanFP raw, sp.col = 1 := by
    rw [spanFP_runs]; exact spansOfRuns_col 1 (runsF raw)
  unfold computeSpansP
  rw [List.filter_append]
  have e1 : (spanAP raw).filter (fun sp => sp.col == 0) = spanAP raw :=
    List.filter_eq_self.mpr (fun sp hsp => by simp [hA sp hsp])
  have e2 : ((if 1 < w then spanFP raw else []) :
      List Span).filter (fun sp => sp.col == 0) = [] := by
    by_cases hw : 1 < w
    · rw [if_pos hw]
      exact List.filter_eq_nil_iff.mpr (fun sp hsp => by simp [hF sp hsp])
    · rw [if_neg hw]
      rfl
  rw [e1, e2, List.append_nil]

/-- The column-1 spans of the full computation are the `Faena` block, when
the table is wide enough for it to run. -/
theorem filter_computeSpansP_one (w : Nat) (raw : List Row) :
    (computeSpansP w raw).filter (fun sp => sp.col == 1) =
      if 1 < w then spanFP raw else [] := by
  have hA : ∀ sp ∈ spanAP raw, sp.col = 0 := by
    rw [spanAP_runs]; exact spansOfRuns_col 0 (runsA raw)
  have hF : ∀ sp ∈ spanFP raw, sp.col = 1 := by
    rw [spanFP_runs]; exact spansOfRuns_col 1 (runsF raw)
  unfold computeSpansP
  rw [List.filter_append]
  have e1 : (spanAP raw).filter (fun sp => sp.col == 1) = [] :=
    List.filter_eq_nil_iff.mpr (fun sp hsp => by simp [hA sp hsp])
  have e2 : ((if 1 < w then spanFP raw else []) :
      List Span).filter (fun sp => sp.col == 1) =
      if 1 < w then spanFP raw else [] := by
    by_cases hw : 1 < w
    · rw [if_pos hw]
      exact List.filter_eq_self.mpr (fun sp hsp => by simp [hF sp hsp])
    · rw [if_neg hw]
      rfl
  rw [e1, e2, List.nil_append]

/-! ### Claims -/

/-- C1, counterexample: on the single-row input `[["X","A"]]` the span
computation emits the spans `(0,1,1)` and `(1,1,1)` — two spans of length
one — although the claim says a single-row input emits no spans at all and
that no length-1 span is ever emitted.  The final flush
`if len(raw_data) + 1 > start_row` of the source is always true, so the
final run is emitted even when it is one row long. -/
theorem c1_counterexample :
    computeSpans 2 [["X", "A"]] = .ok [⟨0, 1, 1⟩, ⟨1, 1, 1⟩] ∧
    computeSpans 2 [["X", "A"]] ≠ .ok ([] : List Span) := by
  refine ⟨rfl, fun h => ?_⟩
  rw [show computeSpans 2 [["X", "A"]] =
    .ok [(⟨0, 1, 1⟩ : Span), ⟨1, 1, 1⟩] from rfl] at h
  simp at h

/-- C2, counterexample: on Scenario A the emitted span list is
`[(0,1,3), (0,4,4), (1,1,2), (1,4,4)]` (1-based visual rows, row 0 being the
header): the `Area` span covers all three `X` rows, two singleton final-run
spans appear, and a `Faena` span IS emitted — contradicting the claimed span
set `{(Area,0,1)}` with no `Faena` span. -/
theorem c2_counterexample :
    computeSpans 2 [["X", "A"], ["X", "A"], ["X", "B"], ["Y", "A"]] =
      .ok [⟨0, 1, 3⟩, ⟨0, 4, 4⟩, ⟨1, 1, 2⟩, ⟨1, 4, 4⟩] ∧
    ∃ sp ∈ [(⟨0, 1, 3⟩ : Span), ⟨0, 4, 4⟩, ⟨1, 1, 2⟩, ⟨1, 4, 4⟩],
      sp.col = 1 := by
  exact ⟨rfl, ⟨1, 1, 2⟩, by decide, rfl⟩

/-- C2, amended: on the sorted Scenario A input the compacted output is
`[(X,A), ("",""), ("",B), (Y,A)]` as claimed, and the emitted spans are
exactly `[(Area,1,3), (Area,4,4), (Faena,1,2), (Faena,4,4)]` in 1-based
visual row indices (row 0 is the header): the `Area` span covers data rows
0-2, the final one-row runs of both columns are also emitted, and a `Faena`
span over data rows 0-1 is emitted. -/
theorem c2_amended :
    compact [["X", "A"], ["X", "A"], ["X", "B"], ["Y", "A"]] =
      .ok [["X", "A"], ["", ""], ["", "B"], ["Y", "A"]] ∧
    computeSpans 2 [["X", "A"], ["X", "A"], ["X", "B"], ["Y", "A"]] =
      .ok [⟨0, 1, 3⟩, ⟨0, 4, 4⟩, ⟨1, 1, 2⟩, ⟨1, 4, 4⟩] :=
  ⟨rfl, rfl⟩

/-- C6, counterexample: the input `[["X","A","m1"], ["X","B"]]` contains a
row whose column count differs from the declared three-column schema, yet
both the blanking pass and the span computation succeed and return ordinary
results — no error of any kind is raised, contradicting the claim that both
components reject such input as a fatal `SchemaMismatchError`. -/
theorem c6_counterexample :
    (∃ r ∈ [["X", "A", "m1"], ["X", "B"]], r.length ≠ 3) ∧
    compact [["X", "A", "m1"], ["X", "B"]] =
      .ok [["X", "A", "m1"], ["", "B"]] ∧
    computeSpans 3 [["X", "A", "m1"], ["X", "B"]] =
      .ok [⟨0, 1, 2⟩, ⟨1, 2, 2⟩] := by
  exact ⟨⟨["X", "B"], by decide, by decide⟩, rfl, rfl⟩

/-- C6, amended: neither component validates row widths against the schema.
Any input whose rows each hold the two grouping columns is processed to
completion even when the row widths are non-uniform, and a row lacking the
first grouping column surfaces as a plain `IndexError` from cell access, not
as a schema error. -/
theorem c6_amended :
    (∀ (w : Nat) (raw : List Row), (∀ r ∈ raw, 2 ≤ r.length) →
      (¬ ∀ r ∈ raw, r.length = w) →
      (∃ out, compact raw = .ok out) ∧
        ∃ sps, computeSpans w raw = .ok sps) ∧
    compactRow (none, none) [] = .error .indexError ∧
    spansArea [[]] = .error .indexError := by
  exact ⟨fun w raw hw _ => ⟨⟨compactC raw, compact_eq raw hw⟩,
    ⟨computeSpansP w raw, computeSpans_eq w raw hw⟩⟩, rfl, rfl⟩

/-- C6, witness for the amended theorem at the concrete non-uniform input. -/
theorem c6_amended_witness :
    (∃ out, compact [["X", "A", "m1"], ["X", "B"]] = .ok out) ∧
    ∃ sps, computeSpans 3 [["X", "A", "m1"], ["X", "B"]] = .ok sps :=
  c6_amended.1 3 [["X", "A", "m1"], ["X", "B"]] (by decide) (by decide)

/-- C7: totality on well-typed input.  For every row sequence whose rows
hold the two grouping columns — sorted or not, the loops never compare
against sortedness — both the blanking pass and the span computation return
a result without raising, and on the empty input both return empty
results. -/
theorem c7_totality (w : Nat) (raw : List Row)
    (hw : ∀ r ∈ raw, 2 ≤ r.length) :
    (∃ out, compact raw = .ok out) ∧
    (∃ sps, computeSpans w raw = .ok sps) ∧
    compact ([] : List Row) = .ok [] ∧
    computeSpans w ([] : List Row) = .ok [] := by
  refine ⟨⟨compactC raw, compact_eq raw hw⟩,
    ⟨computeSpansP w raw, computeSpans_eq w raw hw⟩, rfl, ?_⟩
  simp [computeSpans]

/-- C7, witness at an unsorted concrete input. -/
theorem c7_totality_witness :
    (∃ out, compact [["Y", "A"], ["X", "B"], ["X", "A"]] = .ok out) ∧
    (∃ sps, computeSpans 5 [["Y", "A"], ["X", "B"], ["X", "A"]] = .ok sps) ∧
    compact ([] : List Row) = .ok [] ∧
    computeSpans 5 ([] : List Row) = .ok [] :=
  c7_totality 5 [["Y", "A"], ["X", "B"], ["X", "A"]] (by decide)

/-- C8: row-count and shape invariance.  The blanking pass returns exactly
one output row per input row, and each output row has the same number of
cells as the corresponding input row. -/
theorem c8_shape_invariance (raw out : List Row)
    (hw : ∀ r ∈ raw, 2 ≤ r.length) (hok : compact raw = .ok out) :
    out.length = raw.length ∧
    ∀ i, i < raw.length →
      (out.getD i []).length = (raw.getD i []).length := by
  have he := compact_eq raw hw
  rw [hok] at he
  have hout : out = compactC raw := by simpa using he
  subst hout
  refine ⟨compactC_length raw, fun i hi => ?_⟩
  rcases Nat.eq_zero_or_pos i with h0 | hpos
  · subst h0
    rw [compactC_getD_zero]
  · obtain ⟨j, rfl⟩ : ∃ j, i = j + 1 := ⟨i - 1, by omega⟩
    rw [compactC_getD_succ raw j hi]
    exact blankStep_length _ _ _

/-- C8, witness at Scenario D. -/
theorem c8_shape_invariance_witness :
    ([["X", "A"], ["", ""], ["", ""]] : List Row).length =
      ([["X", "A"], ["X", "A"], ["X", "A"]] : List Row).length ∧
    ∀ i, i < ([["X", "A"], ["X", "A"], ["X", "A"]] : List Row).length →
      (([["X", "A"], ["", ""], ["", ""]] : List Row).getD i []).length =
        (([["X", "A"], ["X", "A"], ["X", "A"]] : List Row).getD i []).length :=
  c8_shape_invariance [["X", "A"], ["X", "A"], ["X", "A"]]
    [["X", "A"], ["", ""], ["", ""]] (by decide) rfl

/-- C9: frame property.  Every cell in a column other than the two grouping
columns is copied through to the blanked output unchanged.  (The source
copies each row with `list(row)` before mutating it, and the embedding is a
pure function of the input, so the input sequence itself is never
mutated.) -/
theorem c9_frame (raw out : List Row)
    (hw : ∀ r ∈ raw, 2 ≤ r.length) (hok : compact raw = .ok out) :
    ∀ i j, i < raw.length → 2 ≤ j →
      (out.getD i []).getD j "" = (raw.getD i []).getD j "" := by
  have he := compact_eq raw hw
  rw [hok] at he
  have hout : out = compactC raw := by simpa using he
  subst hout
  intro i j hi hj
  rcases Nat.eq_zero_or_pos i with h0 | hpos
  · subst h0
    rw [compactC_getD_zero]
  · obtain ⟨k, rfl⟩ : ∃ k, i = k + 1 := ⟨i - 1, by omega⟩
    rw [compactC_getD_succ raw k hi]
    exact blankStep_getD_of_two _ _ _ j hj

/-- C9, witness at a concrete input: the leaf cell `m2` of the second row
passes through the blanking unchanged. -/
theorem c9_frame_witness :
    (([["X", "A", "m1"], ["", "", "m2"]] : List Row).getD 1 []).getD 2 "" =
      (([["X", "A", "m1"], ["X", "A", "m2"]] : List Row).getD 1 []).getD
        2 "" :=
  c9_frame [["X", "A", "m1"], ["X", "A", "m2"]]
    [["X", "A", "m1"], ["", "", "m2"]] (by decide) rfl 1 2 (by decide)
    (by decide)

/-- C3: cascading reset.  For every input whose rows hold the two grouping
columns, if the `Area` value changes at data row `i`, then the blanking pass
keeps row `i` verbatim (in particular its `Faena` cell is kept, even if
equal to the previous row's `Faena`), and no `Faena` span covers both data
rows `i-1` and `i` (visual rows `i` and `i+1`), because the `Faena` span
loop keys on the `(Area, Faena)` pair. -/
theorem c3_cascading_reset (raw : List Row) (i : Nat)
    (hw : ∀ r ∈ raw, 2 ≤ r.length) (h0 : 0 < i) (hi : i < raw.length)
    (hne : ¬ ((raw.getD i []).getD 0 "" = (raw.getD (i - 1) []).getD 0 "")) :
    (∀ out, compact raw = .ok out → out.getD i [] = raw.getD i []) ∧
    (∀ w sps, computeSpans w raw = .ok sps →
      ∀ sp ∈ sps, sp.col = 1 → ¬ (sp.start ≤ i ∧ i + 1 ≤ sp.stop)) := by
  constructor
  · intro out hok
    have he := compact_eq raw hw
    rw [hok] at he
    have hout : out = compactC raw := by simpa using he
    subst hout
    obtain ⟨j, rfl⟩ : ∃ j, i = j + 1 := ⟨i - 1, by omega⟩
    rw [compactC_getD_succ raw j hi]
    apply blankStep_of_ne
    simpa using hne
  · intro w sps hok sp hsp hcol hcontra
    obtain ⟨hs1, hs2⟩ := hcontra
    have he := computeSpans_eq w raw hw
    rw [hok] at he
    have hsps : sps = computeSpansP w raw := by simpa using he
    subst hsps
    rcases mem_computeSpansP hsp with hA | ⟨hw1, hF⟩
    · have hc0 : sp.col = 0 :=
        spansOfRuns_col 0 (runsA raw) sp (by rwa [spanAP_runs] at hA)
      rw [hcol] at hc0
      exact absurd hc0 (by norm_num)
    · rw [spanFP_runs] at hF
      obtain ⟨rn, hrn, he2⟩ := mem_spansOfRuns 1 (runsF raw) sp hF
      have hsound := runsP_map_sound keyFaenaP raw rn hrn
      have hs1' : rn.2.1 ≤ i := by rw [he2] at hs1; exact hs1
      have hs2' : i + 1 ≤ rn.2.2 := by rw [he2] at hs2; exact hs2
      have hv1 := hsound.1 i hs1' (by omega)
      have hv2 := hsound.1 (i + 1) (by omega) hs2'
      apply hne
      have hk : keyFaenaP ((raw[i + 1 - 1]?).getD []) =
          keyFaenaP ((raw[i - 1]?).getD []) := hv2.trans hv1.symm
      have hk0 := congrArg Prod.fst hk
      simp only [keyFaenaP] at hk0
      simp only [List.getD_eq_getElem?_getD]
      simpa using hk0

/-- C3, witness at a concrete input where `Area` changes while `Faena`
repeats. -/
theorem c3_cascading_reset_witness :
    (∀ out, compact [["X", "A"], ["Y", "A"]] = .ok out →
      out.getD 1 [] = ([["X", "A"], ["Y", "A"]] : List Row).getD 1 []) ∧
    (∀ w sps, computeSpans w [["X", "A"], ["Y", "A"]] = .ok sps →
      ∀ sp ∈ sps, sp.col = 1 → ¬ (sp.start ≤ 1 ∧ 1 + 1 ≤ sp.stop)) :=
  c3_cascading_reset [["X", "A"], ["Y", "A"]] 1 (by decide) (by decide)
    (by decide) (by decide)

/-- C10: every emitted span is well-formed in the 1-based visual row
indexing (data row `v-1` sits at visual row `v` because table row 0 is the
header): `1 ≤ start ≤ stop ≤ len(rows)`, spans at the same column are
pairwise disjoint and emitted in increasing start order, and the rows a span
covers all share the key of the span's column (`Area` for column 0, the
`(Area, Faena)` pair for column 1) at the offset data positions. -/
theorem c10_span_well_formedness (w : Nat) (raw : List Row)
    (sps : List Span) (hw : ∀ r ∈ raw, 2 ≤ r.length)
    (hok : computeSpans w raw = .ok sps) :
    (∀ sp ∈ sps, 1 ≤ sp.start ∧ sp.start ≤ sp.stop ∧
      sp.stop ≤ raw.length) ∧
    sps.Pairwise (fun a b => a.col = b.col → a.stop < b.start) ∧
    (∀ sp ∈ sps,
      (sp.col = 0 → ∀ v, sp.start ≤ v → v ≤ sp.stop →
        keyAreaP (raw.getD (v - 1) []) =
          keyAreaP (raw.getD (sp.start - 1) [])) ∧
      (sp.col = 1 → ∀ v, sp.start ≤ v → v ≤ sp.stop →
        keyFaenaP (raw.getD (v - 1) []) =
          keyFaenaP (raw.getD (sp.start - 1) []))) := by
  have he := computeSpans_eq w raw hw
  rw [hok] at he
  have hsps : sps = computeSpansP w raw := by simpa using he
  subst hsps
  refine ⟨?_, ?_, ?_⟩
  · intro sp hsp
    rcases mem_computeSpansP hsp with hA | ⟨hw1, hF⟩
    · rw [spanAP_runs] at hA
      obtain ⟨rn, hrn, he2⟩ := mem_spansOfRuns 0 (runsA raw) sp hA
      subst he2
      obtain ⟨b1, b2, b3⟩ := (runsP_map_bounds keyAreaP raw).1 rn hrn
      exact ⟨b1, b2, b3⟩
    · rw [spanFP_runs] at hF
      obtain ⟨rn, hrn, he2⟩ := mem_spansOfRuns 1 (runsF raw) sp hF
      subst he2
      obtain ⟨b1, b2, b3⟩ := (runsP_map_bounds keyFaenaP raw).1 rn hrn
      exact ⟨b1, b2, b3⟩
  · have hpA : (spanAP raw).Pairwise (fun a b => a.stop < b.start) := by
      rw [spanAP_runs]
      exact spansOfRuns_pairwise 0 _ (runsP_map_bounds keyAreaP raw).2
    have hpF : (spanFP raw).Pairwise (fun a b => a.stop < b.start) := by
      rw [spanFP_runs]
      exact spansOfRuns_pairwise 1 _ (runsP_map_bounds keyFaenaP raw).2
    have hcolA : ∀ sp ∈ spanAP raw, sp.col = 0 := by
      rw [spanAP_runs]; exact spansOfRuns_col 0 _
    have hcolF : ∀ sp ∈ spanFP raw, sp.col = 1 := by
      rw [spanFP_runs]; exact spansOfRuns_col 1 _
    unfold computeSpansP
    rw [List.pairwise_append]
    refine ⟨hpA.imp (fun {a b} h => fun _ : a.col = b.col => h), ?_, ?_⟩
    · by_cases hw1 : 1 < w
      · rw [if_pos hw1]
        exact hpF.imp (fun {a b} h => fun _ : a.col = b.col => h)
      · rw [if_neg hw1]
        exact List.Pairwise.nil
    · intro a ha b hb
      by_cases hw1 : 1 < w
      · rw [if_pos hw1] at hb
        intro hcoleq
        have h0 := hcolA a ha
        have h1 := hcolF b hb
        rw [h0, h1] at hcoleq
        exact absurd hcoleq (by norm_num)
      · rw [if_neg hw1] at hb
        exact absurd hb (List.not_mem_nil b)
  · intro sp hsp
    simp only [List.getD_eq_getElem?_getD]
    rcases mem_computeSpansP hsp with hA | ⟨hw1, hF⟩
    · rw [spanAP_runs] at hA
      obtain ⟨rn, hrn, he2⟩ := mem_spansOfRuns 0 (runsA raw) sp hA
      subst he2
      obtain ⟨hconst, _⟩ := runsP_map_sound keyAreaP raw rn hrn
      constructor
      · intro _ v hv1 hv2
        have k1 := hconst v hv1 hv2
        have k2 := hconst rn.2.1 (Nat.le_refl _)
          ((runsP_map_bounds keyAreaP raw).1 rn hrn).2.1
        exact k1.trans k2.symm
      · intro hcol
        simp at hcol
    · rw [spanFP_runs] at hF
      obtain ⟨rn, hrn, he2⟩ := mem_spansOfRuns 1 (runsF raw) sp hF
      subst he2
      obtain ⟨hconst, _⟩ := runsP_map_sound keyFaenaP raw rn hrn
      constructor
      · intro hcol
        simp at hcol
      · intro _ v hv1 hv2
        have k1 := hconst v hv1 hv2
        have k2 := hconst rn.2.1 (Nat.le_refl _)
          ((runsP_map_bounds keyFaenaP raw).1 rn hrn).2.1
        exact k1.trans k2.symm

/-- C10, witness at Scenario A. -/
theorem c10_span_well_formedness_witness :
    (∀ sp ∈ [(⟨0, 1, 3⟩ : Span), ⟨0, 4, 4⟩, ⟨1, 1, 2⟩, ⟨1, 4, 4⟩],
      1 ≤ sp.start ∧ sp.start ≤ sp.stop ∧
        sp.stop ≤ ([["X", "A"], ["X", "A"], ["X", "B"], ["Y", "A"]] :
          List Row).length) ∧
    ([(⟨0, 1, 3⟩ : Span), ⟨0, 4, 4⟩, ⟨1, 1, 2⟩, ⟨1, 4, 4⟩]).Pairwise
      (fun a b => a.col = b.col → a.stop < b.start) ∧
    (∀ sp ∈ [(⟨0, 1, 3⟩ : Span), ⟨0, 4, 4⟩, ⟨1, 1, 2⟩, ⟨1, 4, 4⟩],
      (sp.col = 0 → ∀ v, sp.start ≤ v → v ≤ sp.stop →
        keyAreaP (([["X", "A"], ["X", "A"], ["X", "B"], ["Y", "A"]] :
            List Row).getD (v - 1) []) =
          keyAreaP (([["X", "A"], ["X", "A"], ["X", "B"], ["Y", "A"]] :
            List Row).getD (sp.start - 1) [])) ∧
      (sp.col = 1 → ∀ v, sp.start ≤ v → v ≤ sp.stop →
        keyFaenaP (([["X", "A"], ["X", "A"], ["X", "B"], ["Y", "A"]] :
            List Row).getD (v - 1) []) =
          keyFaenaP (([["X", "A"], ["X", "A"], ["X", "B"], ["Y", "A"]] :
            List Row).getD (sp.start - 1) []))) :=
  c10_span_well_formedness 2 [["X", "A"], ["X", "A"], ["X", "B"], ["Y", "A"]]
    [⟨0, 1, 3⟩, ⟨0, 4, 4⟩, ⟨1, 1, 2⟩, ⟨1, 4, 4⟩] (by decide) rfl

/-- C4, counterexample: on Scenario D the span `(0,1,3)` is emitted with
`stop > start`, but the claim's formula `compact(rows)[s][C] == rows[s][C]`
fails at `s = 1`: the compacted cell is the empty marker while the input
cell is `X`.  The emitted indices are 1-based visual rows (row 0 is the
header), while the claim reads them as 0-based data rows. -/
theorem c4_counterexample :
    computeSpans 2 [["X", "A"], ["X", "A"], ["X", "A"]] =
      .ok [⟨0, 1, 3⟩, ⟨1, 1, 3⟩] ∧
    compact [["X", "A"], ["X", "A"], ["X", "A"]] =
      .ok [["X", "A"], ["", ""], ["", ""]] ∧
    (⟨0, 1, 3⟩ : Span) ∈ [(⟨0, 1, 3⟩ : Span), ⟨1, 1, 3⟩] ∧
    (⟨0, 1, 3⟩ : Span).start < (⟨0, 1, 3⟩ : Span).stop ∧
    ¬ ((([["X", "A"], ["", ""], ["", ""]] : List Row).getD
          (⟨0, 1, 3⟩ : Span).start []).getD (⟨0, 1, 3⟩ : Span).col "" =
        (([["X", "A"], ["X", "A"], ["X", "A"]] : List Row).getD
          (⟨0, 1, 3⟩ : Span).start []).getD (⟨0, 1, 3⟩ : Span).col "") := by
  exact ⟨rfl, rfl, by decide, by decide, by decide⟩

/-- C4, amended: cross-consistency holds once the one-row header offset of
the emitted spans is accounted for.  For every emitted span `(C, s, e)` with
`e > s` (1-based visual rows, covering data rows `s-1 .. e-1`), the
compacted output carries the empty marker at column `C` for every data row
`i` with `s ≤ i ≤ e-1`, and the compacted output at data row `s-1`, column
`C`, equals the original input cell there. -/
theorem c4_amended (w : Nat) (raw : List Row) (sps : List Span)
    (out : List Row) (hw : ∀ r ∈ raw, 2 ≤ r.length)
    (hok : computeSpans w raw = .ok sps) (hok2 : compact raw = .ok out) :
    ∀ sp ∈ sps, sp.start < sp.stop →
      (∀ i, sp.start ≤ i → i ≤ sp.stop - 1 →
        (out.getD i []).getD sp.col "" = "") ∧
      (out.getD (sp.start - 1) []).getD sp.col "" =
        (raw.getD (sp.start - 1) []).getD sp.col "" := by
  have he := computeSpans_eq w raw hw
  rw [hok] at he
  have hsps : sps = computeSpansP w raw := by simpa using he
  subst hsps
  have hec := compact_eq raw hw
  rw [hok2] at hec
  have hout : out = compactC raw := by simpa using hec
  subst hout
  intro sp hsp hlen
  rcases mem_computeSpansP hsp with hA | ⟨hw1, hF⟩
  · rw [spanAP_runs] at hA
    obtain ⟨rn, hrn, he3⟩ := mem_spansOfRuns 0 (runsA raw) sp hA
    subst he3
    obtain ⟨b1, b2, b3⟩ := (runsP_map_bounds keyAreaP raw).1 rn hrn
    obtain ⟨hconst, hbdry⟩ := runsP_map_sound keyAreaP raw rn hrn
    have hlen' : rn.2.1 < rn.2.2 := hlen
    constructor
    · intro i hi1 hi2
      have hi1' : rn.2.1 ≤ i := hi1
      have hi2' : i ≤ rn.2.2 - 1 := hi2
      obtain ⟨j, rfl⟩ : ∃ j, i = j + 1 := ⟨i - 1, by omega⟩
      show ((compactC raw).getD (j + 1) []).getD 0 "" = ""
      rw [compactC_getD_succ raw j (by omega)]
      apply blankStep_getD_zero_of_eq
      have k1 := hconst (j + 2) (by omega) (by omega)
      have k2 := hconst (j + 1) (by omega) (by omega)
      rw [show j + 2 - 1 = j + 1 from by omega] at k1
      rw [show j + 1 - 1 = j from by omega] at k2
      have hk := k1.trans k2.symm
      simp only [keyAreaP] at hk
      simp only [List.getD_eq_getElem?_getD] at hk ⊢
      exact hk
    · by_cases hone : rn.2.1 = 1
      · show ((compactC raw).getD (rn.2.1 - 1) []).getD 0 "" =
          (raw.getD (rn.2.1 - 1) []).getD 0 ""
        rw [hone]
        simp only [Nat.sub_self]
        rw [compactC_getD_zero]
      · have hsne := hbdry.resolve_left hone
        obtain ⟨j, hj⟩ : ∃ j, rn.2.1 - 1 = j + 1 := ⟨rn.2.1 - 2, by omega⟩
        show ((compactC raw).getD (rn.2.1 - 1) []).getD 0 "" =
          (raw.getD (rn.2.1 - 1) []).getD 0 ""
        rw [hj, compactC_getD_succ raw j (by omega)]
        have kv := hconst rn.2.1 (Nat.le_refl _) b2
        rw [hj] at kv
        have hja : rn.2.1 - 2 = j := by omega
        have hsne' : keyAreaP ((raw[j]?).getD []) ≠ rn.1 := by
          rw [← hja]; exact hsne
        have hne2 : ¬ ((raw.getD (j + 1) []).getD 0 "" =
            (raw.getD j []).getD 0 "") := by
          intro heq
          apply hsne'
          rw [← kv]
          simp only [keyAreaP]
          simp only [List.getD_eq_getElem?_getD] at heq ⊢
          exact heq.symm
        rw [blankStep_of_ne _ _ _ hne2]
  · rw [spanFP_runs] at hF
    obtain ⟨rn, hrn, he3⟩ := mem_spansOfRuns 1 (runsF raw) sp hF
    subst he3
    obtain ⟨b1, b2, b3⟩ := (runsP_map_bounds keyFaenaP raw).1 rn hrn
    obtain ⟨hconst, hbdry⟩ := runsP_map_sound keyFaenaP raw rn hrn
    have hlen' : rn.2.1 < rn.2.2 := hlen
    constructor
    · intro i hi1 hi2
      have hi1' : rn.2.1 ≤ i := hi1
      have hi2' : i ≤ rn.2.2 - 1 := hi2
      obtain ⟨j, rfl⟩ : ∃ j, i = j + 1 := ⟨i - 1, by omega⟩
      show ((compactC raw).getD (j + 1) []).getD 1 "" = ""
      rw [compactC_getD_succ raw j (by omega)]
      have k1 := hconst (j + 2) (by omega) (by omega)
      have k2 := hconst (j + 1) (by omega) (by omega)
      rw [show j + 2 - 1 = j + 1 from by omega] at k1
      rw [show j + 1 - 1 = j from by omega] at k2
      have hk := k1.trans k2.symm
      have h0 := congrArg Prod.fst hk
      have h1 := congrArg Prod.snd hk
      simp only [keyFaenaP] at h0 h1
      apply blankStep_getD_one_of_eq
      · simp only [List.getD_eq_getElem?_getD] at h0 ⊢
        exact h0
      · simp only [List.getD_eq_getElem?_getD] at h1 ⊢
        exact h1
    · by_cases hone : rn.2.1 = 1
      · show ((compactC raw).getD (rn.2.1 - 1) []).getD 1 "" =
          (raw.getD (rn.2.1 - 1) []).getD 1 ""
        rw [hone]
        simp only [Nat.sub_self]
        rw [compactC_getD_zero]
      · have hsne := hbdry.resolve_left hone
        obtain ⟨j, hj⟩ : ∃ j, rn.2.1 - 1 = j + 1 := ⟨rn.2.1 - 2, by omega⟩
        show ((compactC raw).getD (rn.2.1 - 1) []).getD 1 "" =
          (raw.getD (rn.2.1 - 1) []).getD 1 ""
        rw [hj, compactC_getD_succ raw j (by omega)]
        have kv := hconst rn.2.1 (Nat.le_refl _) b2
        rw [hj] at kv
        have hja : rn.2.1 - 2 = j := by omega
        have hsne' : keyFaenaP ((raw[j]?).getD []) ≠ rn.1 := by
          rw [← hja]; exact hsne
        by_cases harea : (raw.getD (j + 1) []).getD 0 "" =
            (raw.getD j []).getD 0 ""
        · have hfne : ¬ ((raw.getD (j + 1) []).getD 1 "" =
              (raw.getD j []).getD 1 "") := by
            intro hfa
            apply hsne'
            rw [← kv]
            simp only [keyFaenaP]
            simp only [Prod.mk.injEq]
            simp only [List.getD_eq_getElem?_getD] at harea hfa ⊢
            exact ⟨harea.symm, hfa.symm⟩
          rw [blankStep_getD_one_of_ne _ _ _ hfne]
        · rw [blankStep_of_ne _ _ _ harea]

/-- C4, witness for the amended theorem at Scenario D and the span
`(0,1,3)`: data row 1 is blanked at column 0 and data row 0 keeps its input
cell. -/
theorem c4_amended_witness :
    (([["X", "A"], ["", ""], ["", ""]] : List Row).getD 1 []).getD 0 "" =
      "" ∧
    (([["X", "A"], ["", ""], ["", ""]] : List Row).getD 0 []).getD 0 "" =
      (([["X", "A"], ["X", "A"], ["X", "A"]] : List Row).getD 0 []).getD
        0 "" := by
  have h := c4_amended 2 [["X", "A"], ["X", "A"], ["X", "A"]]
    [⟨0, 1, 3⟩, ⟨1, 1, 3⟩] [["X", "A"], ["", ""], ["", ""]] (by decide)
    rfl rfl ⟨0, 1, 3⟩ (by decide) (by decide)
  exact ⟨h.1 1 (by decide) (by decide), h.2⟩

/-- Membership in a spans-plus-singletons interval collection always comes
from a run of the decomposition. -/
theorem mem_span_single_coll {K : Type} (col : Nat)
    (rns : List (K × Nat × Nat)) (p : Nat × Nat)
    (h : p ∈ (spansOfRuns col rns).map (fun sp => (sp.start, sp.stop)) ++
        singlesOf rns) :
    ∃ rn ∈ rns, p = (rn.2.1, rn.2.2) := by
  rcases List.mem_append.mp h with h | h
  · obtain ⟨sp, hsp, he⟩ := List.mem_map.mp h
    obtain ⟨rn, hrn, he2⟩ := mem_spansOfRuns col rns sp hsp
    refine ⟨rn, hrn, ?_⟩
    rw [← he, he2]
  · obtain ⟨rn, hrn, he⟩ := List.mem_map.mp h
    exact ⟨rn, List.mem_of_mem_filter hrn, he.symm⟩

/-- The spans of one grouping column together with the length-1 runs of
that column partition the visual row range of the table. -/
theorem partitions_of_runs {K : Type} [DecidableEq K] (g : Row → K)
    (raw : List Row) (col : Nat) :
    partitions ((spansOfRuns col (runsP (raw.map g))).map
        (fun sp => (sp.start, sp.stop)) ++ singlesOf (runsP (raw.map g)))
      raw.length := by
  obtain ⟨hb, hp⟩ := runsP_map_bounds g raw
  refine ⟨?_, ?_, ?_⟩
  · intro v h1 h2
    obtain ⟨rn, hrn, hc1, hc2⟩ := runsP_map_cover g raw v h1 h2
    by_cases hlt : rn.2.1 < rn.2.2
    · refine ⟨(rn.2.1, rn.2.2), ?_, hc1, hc2⟩
      exact List.mem_append.mpr (Or.inl (List.mem_map.mpr
        ⟨⟨col, rn.2.1, rn.2.2⟩,
          spansOfRuns_of_mem_long col _ rn hrn hlt, rfl⟩))
    · have heq : rn.2.1 = rn.2.2 :=
        Nat.le_antisymm (hb rn hrn).2.1 (Nat.le_of_not_lt hlt)
      refine ⟨(rn.2.1, rn.2.2), ?_, hc1, hc2⟩
      exact List.mem_append.mpr (Or.inr (List.mem_map.mpr
        ⟨rn, List.mem_filter.mpr ⟨hrn, by simp [heq]⟩, rfl⟩))
  · intro p hpm q hqm hpq v hv
    obtain ⟨rn1, hrn1, he1⟩ := mem_span_single_coll col _ p hpm
    obtain ⟨rn2, hrn2, he2⟩ := mem_span_single_coll col _ q hqm
    have hsym : Symmetric
        (fun a b : K × Nat × Nat => a.2.2 < b.2.1 ∨ b.2.2 < a.2.1) :=
      fun a b hab => hab.elim Or.inr Or.inl
    have hp2 := hp.imp (fun {a b} h =>
      (Or.inl h : a.2.2 < b.2.1 ∨ b.2.2 < a.2.1))
    have hne12 : rn1 ≠ rn2 := fun e => hpq (by rw [he1, he2, e])
    have hS := List.Pairwise.forall hsym hp2 hrn1 hrn2 hne12
    rw [he1, he2] at hv
    simp at hv
    rcases hS with h | h <;> omega
  · intro p hpm
    obtain ⟨rn, hrn, he⟩ := mem_span_single_coll col _ p hpm
    obtain ⟨b1, _, b3⟩ := hb rn hrn
    rw [he]
    exact ⟨b1, b3⟩

/-- C5, counterexample: on Scenario D the emitted spans are `(0,1,3)` and
`(1,1,3)` and there is no length-1 run, so the collection of spans and
length-1 runs at column 0 does not cover the row index 0 — the claimed
partition target `[0, len(rows))` is off by the one-row header offset of
the emitted indices. -/
theorem c5_counterexample :
    computeSpans 2 [["X", "A"], ["X", "A"], ["X", "A"]] =
      .ok [⟨0, 1, 3⟩, ⟨1, 1, 3⟩] ∧
    runsA [["X", "A"], ["X", "A"], ["X", "A"]] = [("X", 1, 3)] ∧
    ¬ ∃ p ∈ intervalsAt 0 [(⟨0, 1, 3⟩ : Span), ⟨1, 1, 3⟩] ++
        singlesOf (runsA [["X", "A"], ["X", "A"], ["X", "A"]]),
      p.1 ≤ 0 ∧ 0 ≤ p.2 := by
  exact ⟨rfl, rfl, by decide⟩

/-- C5, amended: at each grouping column, the emitted spans together with
the length-1 runs of that column exactly partition the visual row range
`[1, len(rows)]` — the data rows `[0, len(rows))` shifted by the one-row
header offset: every visual row is covered, distinct intervals of the
collection never overlap, and all intervals lie inside the range. -/
theorem c5_amended (w : Nat) (raw : List Row) (sps : List Span)
    (hw : ∀ r ∈ raw, 2 ≤ r.length) (hw1 : 1 < w)
    (hok : computeSpans w raw = .ok sps) :
    partitions (intervalsAt 0 sps ++ singlesOf (runsA raw)) raw.length ∧
    partitions (intervalsAt 1 sps ++ singlesOf (runsF raw)) raw.length := by
  have he := computeSpans_eq w raw hw
  rw [hok] at he
  have hsps : sps = computeSpansP w raw := by simpa using he
  subst hsps
  constructor
  · have h0 : intervalsAt 0 (computeSpansP w raw) =
        (spansOfRuns 0 (runsP (raw.map keyAreaP))).map
          (fun sp => (sp.start, sp.stop)) := by
      unfold intervalsAt
      rw [filter_computeSpansP_zero, spanAP_runs]
      rfl
    rw [h0]
    exact partitions_of_runs keyAreaP raw 0
  · have h1 : intervalsAt 1 (computeSpansP w raw) =
        (spansOfRuns 1 (runsP (raw.map keyFaenaP))).map
          (fun sp => (sp.start, sp.stop)) := by
      unfold intervalsAt
      rw [filter_computeSpansP_one, if_pos hw1, spanFP_runs]
      rfl
    rw [h1]
    exact partitions_of_runs keyFaenaP raw 1

/-- C5, witness for the amended theorem at Scenario D. -/
theorem c5_amended_witness :
    partitions (intervalsAt 0 [(⟨0, 1, 3⟩ : Span), ⟨1, 1, 3⟩] ++
        singlesOf (runsA [["X", "A"], ["X", "A"], ["X", "A"]]))
      ([["X", "A"], ["X", "A"], ["X", "A"]] : List Row).length ∧
    partitions (intervalsAt 1 [(⟨0, 1, 3⟩ : Span), ⟨1, 1, 3⟩] ++
        singlesOf (runsF [["X", "A"], ["X", "A"], ["X", "A"]]))
      ([["X", "A"], ["X", "A"], ["X", "A"]] : List Row).length :=
  c5_amended 2 [["X", "A"], ["X", "A"], ["X", "A"]] [⟨0, 1, 3⟩, ⟨1, 1, 3⟩]
    (by decide) (by decide) rfl

/-- C1, amended: with the only configuration the source implements, the
spans a grouping column emits are exactly one span per interior maximal run
of that column when — and only when — the run is strictly longer than one
row, plus one span for the final run of the table always, even when it is
one row long, because the flush condition `len(raw_data) + 1 > start_row`
never fails.  Formally: the column's maximal runs split as `pre ++ [lrn]`
with `lrn` ending at the last row, and the column's emitted span list is
precisely the image of the strictly-longer-than-one-row runs of `pre`
followed by the span of `lrn`.  In particular a single-row input yields the singleton spans
`(Area,1,1)` and `(Faena,1,1)`. -/
theorem c1_amended :
    (∀ (w : Nat) (raw : List Row) (sps : List Span), raw ≠ [] →
      (∀ r ∈ raw, 2 ≤ r.length) → computeSpans w raw = .ok sps →
      (∃ pre lrn, runsA raw = pre ++ [lrn] ∧ lrn.2.2 = raw.length ∧
        sps.filter (fun sp => sp.col == 0) =
          (pre.filter (fun rn => rn.2.1 < rn.2.2)).map
              (fun rn => ⟨0, rn.2.1, rn.2.2⟩) ++
            [⟨0, lrn.2.1, lrn.2.2⟩]) ∧
      (1 < w →
        ∃ pre lrn, runsF raw = pre ++ [lrn] ∧ lrn.2.2 = raw.length ∧
          sps.filter (fun sp => sp.col == 1) =
            (pre.filter (fun rn => rn.2.1 < rn.2.2)).map
                (fun rn => ⟨1, rn.2.1, rn.2.2⟩) ++
              [⟨1, lrn.2.1, lrn.2.2⟩])) ∧
    computeSpans 2 [["X", "A"]] = .ok [⟨0, 1, 1⟩, ⟨1, 1, 1⟩] := by
  refine ⟨?_, rfl⟩
  intro w raw sps hne hw hok
  have he := computeSpans_eq w raw hw
  rw [hok] at he
  have hsps : sps = computeSpansP w raw := by simpa using he
  subst hsps
  constructor
  · obtain ⟨pre, lrn, hre, hstop⟩ := runsP_map_last keyAreaP raw hne
    refine ⟨pre, lrn, hre, hstop, ?_⟩
    rw [filter_computeSpansP_zero, spanAP_runs]
    show spansOfRuns 0 (runsP (raw.map keyAreaP)) = _
    rw [hre]
    exact spansOfRuns_append_last 0 pre lrn
  · intro hw1
    obtain ⟨pre, lrn, hre, hstop⟩ := runsP_map_last keyFaenaP raw hne
    refine ⟨pre, lrn, hre, hstop, ?_⟩
    rw [filter_computeSpansP_one, if_pos hw1, spanFP_runs]
    show spansOfRuns 1 (runsP (raw.map keyFaenaP)) = _
    rw [hre]
    exact spansOfRuns_append_last 1 pre lrn

/-- C1, witness for the amended theorem at the single-row input: each
column's run decomposition is a single final run `(·,1,1)`, and each
column's emitted span list is exactly the singleton span of that final
run. -/
theorem c1_amended_witness :
    (∃ pre lrn, runsA [["X", "A"]] = pre ++ [lrn] ∧
      lrn.2.2 = ([["X", "A"]] : List Row).length ∧
      ([(⟨0, 1, 1⟩ : Span), ⟨1, 1, 1⟩].filter (fun sp => sp.col == 0)) =
        (pre.filter (fun rn => rn.2.1 < rn.2.2)).map
            (fun rn => ⟨0, rn.2.1, rn.2.2⟩) ++
          [⟨0, lrn.2.1, lrn.2.2⟩]) ∧
    (1 < 2 →
      ∃ pre lrn, runsF [["X", "A"]] = pre ++ [lrn] ∧
        lrn.2.2 = ([["X", "A"]] : List Row).length ∧
        ([(⟨0, 1, 1⟩ : Span), ⟨1, 1, 1⟩].filter (fun sp => sp.col == 1)) =
          (pre.filter (fun rn => rn.2.1 < rn.2.2)).map
              (fun rn => ⟨1, rn.2.1, rn.2.2⟩) ++
            [⟨1, lrn.2.1, lrn.2.2⟩]) :=
  c1_amended.1 2 [["X", "A"]] [⟨0, 1, 1⟩, ⟨1, 1, 1⟩] (by decide)
    (by decide) c1_amended.2

end Tablero
